import Mathlib

/-!
Verification of the lua-native embedding bridge (`src/core/lua-runtime.cpp`,
`src/core/lua-runtime.h`, `src/lua-native.cpp`).

Shallow embedding conventions:

* The host-neutral value model (`struct LuaValue` in `lua-runtime.h`) is `Value`.
  Doubles never undergo arithmetic in the bridge; they are carried opaquely as a
  bit pattern (`Float64`).  Byte strings are modelled by `String` (the bridge
  copies them verbatim).  `lua_Integer`/`int64_t` are modelled by `Int` (the
  casts in the source are identities on the int64 range).
* A value sitting on the Lua stack is `LuaNativeValue`.  A Lua table is its
  `lua_next` traversal sequence: a list of key/value entries in traversal
  order, plus its has-metatable flag and an intrinsic identity `tid` standing
  for the registry reference `luaL_ref` hands out for it.  Registry slots are
  modelled by that intrinsic identity: `luaL_ref` on a function/thread with
  identity `i` yields reference `i`, and `lua_rawgeti` on reference `i` yields
  the object with identity `i`.  `registryObject r` stands for the object in
  registry slot `r` when its shape is not tracked (metatabled tables, opaque
  userdata); no claim inspects such an object, and re-converting one is marked
  by a model-level error so that it can never be silently mistaken for a real
  conversion result of the source.
* C++ exceptions (`throw std::runtime_error` / `lua_error`) are `Except.error`.
-/

namespace LuaNative

/-- Opaque IEEE-754 double, identified by its bit pattern.  The bridge only
moves doubles across the boundary (`lua_pushnumber` / `lua_tonumber`), so no
arithmetic on them is ever needed. -/
structure Float64 where
  bits : Nat
deriving DecidableEq, Repr

/-- A key of a Lua table as seen by `lua_next`.  Float keys cannot be integral
(Lua normalises integral float keys to integers on insertion), and the bridge
only ever stringifies them (`lua_tostring`), so a float key is carried by its
decimal rendering.  `boolKey`/`otherKey` cover the key types the map branch of
`ToLuaValue` skips (booleans, tables, functions, threads, userdata). -/
inductive LuaKey where
  | intKey (n : Int)
  | strKey (s : String)
  | floatKey (rendered : String)
  | boolKey (b : Bool)
  | otherKey (id : Nat)
deriving DecidableEq, Repr

/-- The host-neutral value model: `LuaValue::Variant` from `lua-runtime.h`.
`map` is `std::unordered_map<std::string, LuaPtr>`, modelled as a key/value
list in iteration order (real keys are distinct; insertion order is
irrelevant to the data model).  `userdataRef` carries `ref_id`,
`registry_ref`, the opaque flag and the proxy flag of `LuaUserdataRef`. -/
inductive Value where
  | nil
  | boolean (b : Bool)
  | int64 (n : Int)
  | float64 (x : Float64)
  | str (s : String)
  | arr (items : List Value)
  | map (kvs : List (String × Value))
  | funcRef (ref : Int)
  | threadRef (ref : Int)
  | userdataRef (refId : Int) (registryRef : Int) (opq : Bool) (proxy : Bool)
  | tableRef (ref : Int)

/-- A value on the Lua stack.  `table hasMeta tid entries`: `hasMeta` is what
`lua_getmetatable` reports, `tid` the table's intrinsic registry identity,
`entries` its `lua_next` traversal sequence.  `userdataProxy`/`userdataHost`
are the bridge's own userdata blocks (proxy resp. plain metatable), holding
the host-side `ref_id`.  `foreignUserdata` is userdata created by Lua itself;
`lightUserdata` covers the stack types `ToLuaValue` leaves to its `default`
case. -/
inductive LuaNativeValue where
  | nil
  | boolean (b : Bool)
  | intNum (n : Int)
  | floatNum (x : Float64)
  | str (s : String)
  | table (hasMeta : Bool) (tid : Int) (entries : List (LuaKey × LuaNativeValue))
  | func (id : Int)
  | thread (id : Int)
  | userdataProxy (refId : Int)
  | userdataHost (refId : Int)
  | foreignUserdata (id : Int)
  | registryObject (ref : Int)
  | lightUserdata

/-- `LUA_NOREF`. -/
def kLuaNoRef : Int := -2

/-- `LuaRuntime::kMaxDepth`. -/
def kMaxDepth : Nat := 100

/-- The message both conversion directions throw when the depth cap is hit
(`lua-runtime.cpp`, `ToLuaValue` / `PushLuaValue`). -/
def depthErrMsg : String :=
  "Value nesting depth exceeds the maximum of " ++ toString kMaxDepth ++ " levels"

/-- Association-list lookup, modelling `std::unordered_map::find`. -/
def assocGet {K V : Type} [DecidableEq K] : List (K × V) → K → Option V
  | [], _ => none
  | (k, v) :: t, key => if k = key then some v else assocGet t key

/-- Association-list write, modelling `std::unordered_map` assignment through
`operator[]` (replace if present, append otherwise). -/
def assocSet {K V : Type} [DecidableEq K] : List (K × V) → K → V → List (K × V)
  | [], key, val => [(key, val)]
  | (k, v) :: t, key, val =>
    if k = key then (key, val) :: t else (k, v) :: assocSet t key val

/-- Association-list erase, modelling `std::unordered_map::erase`. -/
def assocErase {K V : Type} [DecidableEq K] : List (K × V) → K → List (K × V)
  | [], _ => []
  | (k, v) :: t, key => if k = key then t else (k, v) :: assocErase t key

/-- The helper `isSequentialArray` of `lua-runtime.cpp`: walk the `lua_next`
traversal, requiring each key to be the integer `expected`, starting at 1. -/
def isSequentialArrayGo : List (LuaKey × LuaNativeValue) → Int → Bool
  | [], _ => true
  | (k, _) :: t, expected =>
    match k with
    | .intKey n => if n = expected then isSequentialArrayGo t (expected + 1) else false
    | _ => false

/-- Entry point of `isSequentialArray` (`expected` starts at 1). -/
def isSequentialArray (entries : List (LuaKey × LuaNativeValue)) : Bool :=
  isSequentialArrayGo entries 1

/-- The key stringification of the map branch of `ToLuaValue`: string keys
kept as is, number keys through `lua_tostring` (`%d` for integers, which
matches `Int`'s decimal rendering; float keys carry their rendering), other
key types yield `none` (the loop skips them). -/
def stringifyKey : LuaKey → Option String
  | .strKey s => some s
  | .intKey n => some (toString n)
  | .floatKey rendered => some rendered
  | .boolKey _ => none
  | .otherKey _ => none

/-- `std::unordered_map::emplace`: insert only if the key is absent. -/
def emplace (m : List (String × Value)) (k : String) (v : Value) : List (String × Value) :=
  if m.any (fun p => p.1 = k) then m else m ++ [(k, v)]

/-- Re-converting a bare registry slot is outside the model (see the file
header); the error text marks that boundary and matches nothing the source
produces. -/
def regObjMsg : String := "registry object re-conversion is outside this model"

mutual
/-- `LuaRuntime::ToLuaValue(lua_State*, int index, int depth)`: convert the
value at a stack position to a `Value`, failing once `depth` exceeds
`kMaxDepth`.  In the `LUA_TTABLE` case, a metatabled table becomes a
`tableRef` of its registry reference; a plain table is either structurally
copied as a sequence (when `isSequentialArray` holds — then `lua_rawlen` is
the entry count and `lua_rawgeti i` is exactly the `i`-th traversal value,
since the sequential check has verified the keys are `1..N` in order) or
folded into a map via `toLuaMapGo`. -/
def toLuaValue (lv : LuaNativeValue) (depth : Nat) : Except String Value :=
  if depth > kMaxDepth then .error depthErrMsg
  else
    match lv with
    | .nil => .ok Value.nil
    | .intNum n => .ok (Value.int64 n)
    | .floatNum x => .ok (Value.float64 x)
    | .boolean b => .ok (Value.boolean b)
    | .str s => .ok (Value.str s)
    | .table hasMeta tid entries =>
      if hasMeta then .ok (Value.tableRef tid)
      else if isSequentialArray entries then do
        let items ← toLuaSeqVals entries (depth + 1)
        .ok (Value.arr items)
      else do
        let kvs ← toLuaMapGo [] entries (depth + 1)
        .ok (Value.map kvs)
    | .func id => .ok (Value.funcRef id)
    | .thread id => .ok (Value.threadRef id)
    | .userdataProxy refId => .ok (Value.userdataRef refId kLuaNoRef false true)
    | .userdataHost refId => .ok (Value.userdataRef refId kLuaNoRef false false)
    | .foreignUserdata id => .ok (Value.userdataRef (-1) id true false)
    | .registryObject _ => .error regObjMsg
    | .lightUserdata => .ok Value.nil

/-- The `lua_rawgeti` loop of the sequential-array branch: convert the entry
values in traversal order. -/
def toLuaSeqVals (entries : List (LuaKey × LuaNativeValue)) (depth : Nat) :
    Except String (List Value) :=
  match entries with
  | [] => .ok []
  | (_, v) :: t => do
    let x ← toLuaValue v depth
    let xs ← toLuaSeqVals t depth
    .ok (x :: xs)

/-- The `lua_next` loop of the map branch: keys that stringify are converted
and `emplace`d (the value is converted before the duplicate check, exactly as
the `emplace` argument is evaluated in the source); other keys are skipped
before their value is touched. -/
def toLuaMapGo (acc : List (String × Value))
    (entries : List (LuaKey × LuaNativeValue)) (depth : Nat) :
    Except String (List (String × Value)) :=
  match entries with
  | [] => .ok acc
  | (k, v) :: t =>
    match stringifyKey k with
    | none => toLuaMapGo acc t depth
    | some s => do
      let x ← toLuaValue v depth
      toLuaMapGo (emplace acc s x) t depth
end

/-- Test used by the table-building branches of `PushLuaValue`: storing `nil`
under a key (`lua_rawseti`/`lua_settable`) leaves the fresh table without
that entry. -/
def isNilLNV : LuaNativeValue → Bool
  | .nil => true
  | _ => false

mutual
/-- `LuaRuntime::PushLuaValue(lua_State*, const LuaPtr&, int depth)`:
reconstruct a stack value from a `Value` with the same depth cap.  Sequences
and maps build a fresh metatable-less table; handles are re-materialised from
the registry (`lua_rawgeti`); a non-opaque userdata handle gets a fresh
userdata block with the same `ref_id` (its ref-count increment side effect is
modelled by `incrementUserdataRefCount` below). -/
def pushLuaValue (v : Value) (depth : Nat) : Except String LuaNativeValue :=
  if depth > kMaxDepth then .error depthErrMsg
  else
    match v with
    | .nil => .ok LuaNativeValue.nil
    | .boolean b => .ok (LuaNativeValue.boolean b)
    | .int64 n => .ok (LuaNativeValue.intNum n)
    | .float64 x => .ok (LuaNativeValue.floatNum x)
    | .str s => .ok (LuaNativeValue.str s)
    | .arr items => do
      let entries ← pushSeqEntries items 1 (depth + 1)
      .ok (LuaNativeValue.table false 0 entries)
    | .map kvs => do
      let entries ← pushMapEntries kvs (depth + 1)
      .ok (LuaNativeValue.table false 0 entries)
    | .funcRef r => .ok (LuaNativeValue.func r)
    | .threadRef r => .ok (LuaNativeValue.thread r)
    | .userdataRef refId registryRef opq proxy =>
      if opq then .ok (LuaNativeValue.registryObject registryRef)
      else .ok (if proxy then LuaNativeValue.userdataProxy refId
                else LuaNativeValue.userdataHost refId)
    | .tableRef r => .ok (LuaNativeValue.registryObject r)

/-- The `lua_rawseti` loop of the sequence branch: push each item at
`depth + 1` and store it under the running index `idx` (starting at 1);
storing `nil` leaves no entry. -/
def pushSeqEntries (items : List Value) (idx : Int) (depth : Nat) :
    Except String (List (LuaKey × LuaNativeValue)) :=
  match items with
  | [] => .ok []
  | item :: rest => do
    let lv ← pushLuaValue item depth
    let tail ← pushSeqEntries rest (idx + 1) depth
    .ok (if isNilLNV lv then tail else (LuaKey.intKey idx, lv) :: tail)

/-- The `lua_settable` loop of the map branch: each key is pushed as a Lua
string; storing `nil` leaves no entry. -/
def pushMapEntries (kvs : List (String × Value)) (depth : Nat) :
    Except String (List (LuaKey × LuaNativeValue)) :=
  match kvs with
  | [] => .ok []
  | (k, val) :: rest => do
    let lv ← pushLuaValue val depth
    let tail ← pushMapEntries rest depth
    .ok (if isNilLNV lv then tail else (LuaKey.strKey k, lv) :: tail)
end

/-- Nil test on the value-model side (used by the round-trip precondition:
aggregates holding a `Nil` child lose it when pushed, see `pushSeqEntries`/
`pushMapEntries`). -/
def isNilValue : Value → Bool
  | .nil => true
  | _ => false

/-- Distinctness of map keys; real `std::unordered_map` keys are always
distinct, the list representation has to state it. -/
def distinctKeys : List String → Bool
  | [] => true
  | k :: t => !(t.any (fun q => q = k)) && distinctKeys t

mutual
/-- Values whose round trip through the stack is structure-preserving: only
the structurally copied kinds (no handle variants), with every map nonempty
and distinct-keyed and no `nil` stored directly inside an aggregate. -/
def roundTrippable : Value → Bool
  | .nil => true
  | .boolean _ => true
  | .int64 _ => true
  | .float64 _ => true
  | .str _ => true
  | .arr items => rtList items
  | .map kvs => !(kvs.isEmpty) && distinctKeys (kvs.map Prod.fst) && rtMap kvs
  | _ => false

/-- Item condition for sequences: non-nil, recursively round-trippable. -/
def rtList : List Value → Bool
  | [] => true
  | v :: t => !(isNilValue v) && roundTrippable v && rtList t

/-- Entry condition for maps: non-nil value, recursively round-trippable. -/
def rtMap : List (String × Value) → Bool
  | [] => true
  | (_, v) :: t => !(isNilValue v) && roundTrippable v && rtMap t
end

mutual
/-- Nesting depth of a value: scalars sit at depth 0, a nonempty aggregate is
one deeper than its deepest child, an empty aggregate adds no descent (the
conversion recursion never enters it). -/
def valueDepth : Value → Nat
  | .arr items => if items.isEmpty then 0 else 1 + depthOfList items
  | .map kvs => if kvs.isEmpty then 0 else 1 + depthOfMap kvs
  | _ => 0

/-- Deepest element of a list of values. -/
def depthOfList : List Value → Nat
  | [] => 0
  | v :: t => max (valueDepth v) (depthOfList t)

/-- Deepest value of a key/value list. -/
def depthOfMap : List (String × Value) → Nat
  | [] => 0
  | (_, v) :: t => max (valueDepth v) (depthOfMap t)
end

/-- A host-registered function (`LuaRuntime::Function`): takes the marshalled
arguments, returns a result `Value` or throws. -/
def HostFn : Type := List Value → Except String Value

/-- The runtime-instance state the host-call bridge reads and writes:
`host_functions_`, the global closures `RegisterFunction` installs (global
name mapped to the closure's name upvalue), and `async_mode_`
(`userdata_ref_counts_` is handled by the dedicated functions below). -/
structure RuntimeState where
  hostFunctions : List (String × HostFn)
  globals : List (String × String)
  asyncMode : Bool

/-- `LuaRuntime::RegisterFunction`: store the function under its name
(replacing any previous entry) and bind the global `name` to a
`LuaCallHostFunction` closure whose upvalue is `name`. -/
def registerFunction (s : RuntimeState) (name : String) (fn : HostFn) : RuntimeState :=
  { s with
    hostFunctions := assocSet s.hostFunctions name fn
    globals := assocSet s.globals name name }

/-- The argument-marshalling loop shared by `LuaCallHostFunction`, the
execute entry points and `ResumeCoroutine`: `ToLuaValue` at depth 0 on each
stack slot in order, propagating the first failure. -/
def toLuaValueList : List LuaNativeValue → Except String (List Value)
  | [] => .ok []
  | r :: t => do
    let v ← toLuaValue r 0
    let vs ← toLuaValueList t
    .ok (v :: vs)

/-- `LuaRuntime::LuaCallHostFunction`: resolve the name upvalue in
`host_functions_`, reject while in async mode, marshal the arguments, invoke
the host function, marshal its result; every failure becomes a Lua error
with the source's message. -/
def luaCallHostFunction (s : RuntimeState) (funcName : String)
    (args : List LuaNativeValue) : Except String LuaNativeValue :=
  match assocGet s.hostFunctions funcName with
  | none => .error ("Host function '" ++ funcName ++ "' not found")
  | some fn =>
    if s.asyncMode then
      .error ("JS callbacks are not available in async mode (called '" ++ funcName ++ "')")
    else
      match toLuaValueList args with
      | .error e => .error ("Error converting arguments for '" ++ funcName ++ "': " ++ e)
      | .ok vals =>
        match fn vals with
        | .error e => .error ("Host function '" ++ funcName ++ "' threw an exception: " ++ e)
        | .ok result =>
          match pushLuaValue result 0 with
          | .error e =>
            .error ("Error converting return value from '" ++ funcName ++ "': " ++ e)
          | .ok lv => .ok lv

/-- Embedded code invoking a global: if the global holds a
`LuaCallHostFunction` closure it runs it with its upvalue, otherwise Lua
raises its call-of-nil error. -/
def callGlobal (s : RuntimeState) (name : String) (args : List LuaNativeValue) :
    Except String LuaNativeValue :=
  match assocGet s.globals name with
  | some upvalue => luaCallHostFunction s upvalue args
  | none => .error ("attempt to call a nil value (global '" ++ name ++ "')")

/-- `LuaRuntime::IncrementUserdataRefCount`: `userdata_ref_counts_[ref_id]++`
(`operator[]` default-constructs the counter at 0 first). -/
def incrementUserdataRefCount (counts : List (Int × Int)) (refId : Int) :
    List (Int × Int) :=
  match assocGet counts refId with
  | some c => assocSet counts refId (c + 1)
  | none => assocSet counts refId 1

/-- `LuaRuntime::DecrementUserdataRefCount`: no-op when the id has no
counter; otherwise decrement, and on reaching zero erase the counter and
report that the release callback (`userdata_gc_callback_`) fires.  The
returned flag is that notification. -/
def decrementUserdataRefCount (counts : List (Int × Int)) (refId : Int) :
    List (Int × Int) × Bool :=
  match assocGet counts refId with
  | none => (counts, false)
  | some c =>
    if c - 1 ≤ 0 then (assocErase counts refId, true)
    else (assocSet counts refId (c - 1), false)

/-- Outcome of handing a chunk to the out-of-scope interpreter
(`luaL_loadstring`/`lua_load` + `lua_pcall`): compile failure, runtime
failure, or completion leaving result values on the stack. -/
inductive ExecOutcome where
  | loadError (msg : String)
  | runError (msg : String)
  | done (results : List LuaNativeValue)

/-- `ScriptResult`: `std::variant<std::vector<LuaPtr>, std::string>`. -/
inductive ScriptOutcome where
  | values (vs : List Value)
  | failure (msg : String)

/-- `lua_pop(L, n)` on a stack modelled bottom-first. -/
def popTop (st : List LuaNativeValue) (n : Nat) : List LuaNativeValue :=
  st.take (st.length - n)

/-- `LuaRuntime::ExecuteScript`: record the stack depth, run the chunk, and
either pop the single error message or convert and pop the `gettop -
stackBefore` results (popping them as well when a conversion throws).  The
interpreter itself is out of scope and enters as `outcome`; the runtime state
is the receiver object (`ExecuteScript` is `const` and reads none of the
bridge fields). -/
def executeScript (s : RuntimeState) (stack0 : List LuaNativeValue)
    (outcome : ExecOutcome) : ScriptOutcome × List LuaNativeValue :=
  match s, outcome with
  | _, .loadError msg =>
    let st1 := stack0 ++ [LuaNativeValue.str msg]
    (.failure msg, popTop st1 1)
  | _, .runError msg =>
    let st1 := stack0 ++ [LuaNativeValue.str msg]
    (.failure msg, popTop st1 1)
  | _, .done results =>
    let st1 := stack0 ++ results
    let nresults := st1.length - stack0.length
    match toLuaValueList results with
    | .error e => (.failure e, popTop st1 nresults)
    | .ok vs => (.values vs, popTop st1 nresults)

/-- `LuaRuntime::LoadBytecode`: reject empty bytecode before touching the
stack, then behave as the execute path (load via the one-shot reader, pcall,
convert, restore). -/
def loadBytecode (s : RuntimeState) (bytecode : List Nat) (chunkName : String)
    (stack0 : List LuaNativeValue) (outcome : ExecOutcome) :
    ScriptOutcome × List LuaNativeValue :=
  if bytecode.isEmpty then (.failure "Bytecode cannot be empty", stack0)
  else
    match s, chunkName, outcome with
    | _, _, .loadError msg =>
      let st1 := stack0 ++ [LuaNativeValue.str msg]
      (.failure msg, popTop st1 1)
    | _, _, .runError msg =>
      let st1 := stack0 ++ [LuaNativeValue.str msg]
      (.failure msg, popTop st1 1)
    | _, _, .done results =>
      let st1 := stack0 ++ results
      let nresults := st1.length - stack0.length
      match toLuaValueList results with
      | .error e => (.failure e, popTop st1 nresults)
      | .ok vs => (.values vs, popTop st1 nresults)

/-- `lua_status` of a coroutine thread, collapsed to the three classes the
bridge distinguishes: `LUA_OK`, `LUA_YIELD`, or any error status. -/
inductive LuaThreadStatus where
  | statusOk
  | statusYield
  | statusErr
deriving DecidableEq, Repr

/-- The observable fields of a `LuaThreadRef`'s thread: whether the pointer
is non-null, its `lua_status`, and its `lua_gettop`. -/
structure CoThread where
  valid : Bool
  status : LuaThreadStatus
  stackSize : Nat
deriving DecidableEq, Repr

/-- `enum class CoroutineStatus`. -/
inductive CoroutineStatus where
  | Suspended
  | Running
  | Dead
deriving DecidableEq, Repr

/-- `struct CoroutineResult`. -/
structure CoroutineResult where
  status : CoroutineStatus
  values : List Value
  error : Option String

/-- What the out-of-scope scheduler does when `lua_resume` actually runs:
yield with values, return with values, or raise an error message. -/
inductive ResumeBehavior where
  | yields (vals : List LuaNativeValue)
  | returns (vals : List LuaNativeValue)
  | fails (msg : String)

/-- `LuaRuntime::GetCoroutineStatus`: null thread is `Dead`; `LUA_YIELD` is
`Suspended`; `LUA_OK` is `Dead` on an empty stack (nothing left to run) and
`Suspended` otherwise; any error status is `Dead`. -/
def getCoroutineStatus (t : CoThread) : CoroutineStatus :=
  if !t.valid then .Dead
  else if t.status = .statusYield then .Suspended
  else if t.status = .statusOk then
    if t.stackSize = 0 then .Dead else .Suspended
  else .Dead

/-- The argument-push loop of `ResumeCoroutine`: push each argument onto the
thread's stack at depth 0, reporting the new `gettop` or, on a marshalling
throw, the `gettop` after the arguments already pushed together with the
message. -/
def pushArgsCount : List Value → Nat → Nat × Option String
  | [], n => (n, none)
  | a :: t, n =>
    match pushLuaValue a 0 with
    | .error e => (n, some e)
    | .ok _ => pushArgsCount t (n + 1)

/-- `LuaRuntime::ResumeCoroutine`: early error results (thread untouched,
scheduler never entered) for a null thread, a dead status, or a finished
thread (`LUA_OK` with empty stack) and for an argument-marshalling failure;
otherwise drive `lua_resume` and classify yield / completion / error,
converting result values (a conversion failure turns the resume into a dead
error result).  The third component reports whether `lua_resume` was
entered. -/
def resumeCoroutine (t : CoThread) (args : List Value) (beh : ResumeBehavior) :
    CoroutineResult × CoThread × Bool :=
  if !t.valid then
    (⟨.Dead, [], some "Invalid coroutine thread"⟩, t, false)
  else if t.status ≠ .statusOk ∧ t.status ≠ .statusYield then
    (⟨.Dead, [], some "Coroutine is dead"⟩, t, false)
  else if t.status = .statusOk ∧ t.stackSize = 0 then
    (⟨.Dead, [], some "Coroutine has finished"⟩, t, false)
  else
    match pushArgsCount args t.stackSize with
    | (n, some e) =>
      (⟨.Dead, [], some ("Error converting coroutine arguments: " ++ e)⟩,
       { t with stackSize := n }, false)
    | (_, none) =>
      match beh with
      | .yields vals =>
        match toLuaValueList vals with
        | .error e =>
          (⟨.Dead, [], some e⟩, { t with status := .statusYield, stackSize := 0 }, true)
        | .ok vs =>
          (⟨.Suspended, vs, none⟩, { t with status := .statusYield, stackSize := 0 }, true)
      | .returns vals =>
        match toLuaValueList vals with
        | .error e =>
          (⟨.Dead, [], some e⟩, { t with status := .statusOk, stackSize := 0 }, true)
        | .ok vs =>
          (⟨.Dead, vs, none⟩, { t with status := .statusOk, stackSize := 0 }, true)
      | .fails msg =>
        (⟨.Dead, [], some msg⟩, { t with status := .statusErr, stackSize := 0 }, true)

/-- The JS-side object record behind a host userdata id
(`LuaContext::js_userdata_` in `lua-native.cpp`): the read/write permissions
and the object's properties (`Napi::Object::Get`, out of scope, enters as a
pure property map). -/
structure HostObject where
  readable : Bool
  writable : Bool
  getProp : String → Value

/-- The property getter `LuaContext` installs via `SetPropertyHandlers`
(`lua-native.cpp`): unknown id yields nil; a non-readable entry throws
"userdata is not readable"; otherwise the object's property is fetched and
converted. -/
def propertyGetter (ud : List (Int × HostObject)) (refId : Int) (key : String) :
    Except String Value :=
  match assocGet ud refId with
  | none => .ok Value.nil
  | some o =>
    if !o.readable then .error "userdata is not readable"
    else .ok (o.getProp key)

/-- `LuaRuntime::UserdataIndex` (`__index` of the proxy metatable): with no
getter configured it pushes nil; otherwise it calls the getter and pushes the
result, and any exception from the getter or from `PushLuaValue` is caught
and re-raised as the Lua error `Error reading property '<key>': <message>`. -/
def userdataIndex (getter : Option (Int → String → Except String Value))
    (refId : Int) (key : String) : Except String LuaNativeValue :=
  match getter with
  | none => .ok LuaNativeValue.nil
  | some g =>
    match (do
        let r ← g refId key
        pushLuaValue r 0 : Except String LuaNativeValue) with
    | .error e => .error ("Error reading property '" ++ key ++ "': " ++ e)
    | .ok v => .ok v

/-- A chain of `k` plain single-entry tables around a boolean, on the stack
side. -/
def nestLua : Nat → LuaNativeValue
  | 0 => .boolean true
  | k + 1 => .table false 0 [(LuaKey.intKey 1, nestLua k)]

/-- A chain of `k` singleton sequences around a boolean, on the value-model
side. -/
def nestValue : Nat → Value
  | 0 => .boolean true
  | k + 1 => .arr [nestValue k]

section AssocLemmas

variable {K V : Type} [DecidableEq K]

theorem assocGet_assocSet_self (m : List (K × V)) (k : K) (v : V) :
    assocGet (assocSet m k v) k = some v := by
  induction m with
  | nil => simp [assocSet, assocGet]
  | cons p t ih =>
    obtain ⟨k1, v1⟩ := p
    by_cases h : k1 = k
    · subst h; simp [assocSet, assocGet]
    · simp [assocSet, assocGet, h, ih]

theorem assocSet_assocSet (m : List (K × V)) (k : K) (v1 v2 : V) :
    assocSet (assocSet m k v1) k v2 = assocSet m k v2 := by
  induction m with
  | nil => simp [assocSet]
  | cons p t ih =>
    obtain ⟨k1, w⟩ := p
    by_cases h : k1 = k
    · subst h; simp [assocSet]
    · simp [assocSet, h, ih]

theorem assocGet_mem {m : List (K × V)} {k : K} {v : V}
    (h : assocGet m k = some v) : (k, v) ∈ m := by
  induction m with
  | nil => simp [assocGet] at h
  | cons p t ih =>
    obtain ⟨k1, v1⟩ := p
    by_cases hk : k1 = k
    · subst hk
      simp [assocGet] at h
      subst h
      exact List.mem_cons_self _ _
    · simp [assocGet, hk] at h
      exact List.mem_cons_of_mem _ (ih h)

theorem mem_assocSet {m : List (K × V)} {k : K} {v : V} {p : K × V}
    (h : p ∈ assocSet m k v) : p = (k, v) ∨ p ∈ m := by
  induction m with
  | nil => simpa [assocSet] using h
  | cons q t ih =>
    obtain ⟨k1, v1⟩ := q
    by_cases hk : k1 = k
    · subst hk
      simp [assocSet] at h
      rcases h with h | h
      · exact Or.inl h
      · exact Or.inr (List.mem_cons_of_mem _ h)
    · simp [assocSet, hk] at h
      rcases h with h | h
      · exact Or.inr (by simp [h])
      · rcases ih h with h1 | h1
        · exact Or.inl h1
        · exact Or.inr (List.mem_cons_of_mem _ h1)

theorem mem_assocErase {m : List (K × V)} {k : K} {p : K × V}
    (h : p ∈ assocErase m k) : p ∈ m := by
  induction m with
  | nil => simp [assocErase] at h
  | cons q t ih =>
    obtain ⟨k1, v1⟩ := q
    by_cases hk : k1 = k
    · subst hk
      simp [assocErase] at h
      exact List.mem_cons_of_mem _ h
    · simp [assocErase, hk] at h
      rcases h with h | h
      · simp [h]
      · exact List.mem_cons_of_mem _ (ih h)

theorem assocSet_of_none {m : List (K × V)} {k : K} (v : V)
    (h : assocGet m k = none) : assocSet m k v = m ++ [(k, v)] := by
  induction m with
  | nil => simp [assocSet]
  | cons q t ih =>
    obtain ⟨k1, v1⟩ := q
    by_cases hk : k1 = k
    · subst hk; simp [assocGet] at h
    · simp [assocGet, hk] at h
      simp [assocSet, hk, ih h]

theorem assocGet_append_of_none {m : List (K × V)} {k : K} (l : List (K × V))
    (h : assocGet m k = none) : assocGet (m ++ l) k = assocGet l k := by
  induction m with
  | nil => simp
  | cons q t ih =>
    obtain ⟨k1, v1⟩ := q
    by_cases hk : k1 = k
    · subst hk; simp [assocGet] at h
    · simp [assocGet, hk] at h ⊢
      exact ih h

theorem assocSet_append_of_none {m : List (K × V)} {k : K} (v w : V)
    (l : List (K × V)) (h : assocGet m k = none) :
    assocSet (m ++ (k, v) :: l) k w = m ++ (k, w) :: l := by
  induction m with
  | nil => simp [assocSet]
  | cons q t ih =>
    obtain ⟨k1, v1⟩ := q
    by_cases hk : k1 = k
    · subst hk; simp [assocGet] at h
    · simp [assocGet, hk] at h
      simp [assocSet, hk, ih h]

theorem assocErase_append_of_none {m : List (K × V)} {k : K} (v : V)
    (l : List (K × V)) (h : assocGet m k = none) :
    assocErase (m ++ (k, v) :: l) k = m ++ l := by
  induction m with
  | nil => simp [assocErase]
  | cons q t ih =>
    obtain ⟨k1, v1⟩ := q
    by_cases hk : k1 = k
    · subst hk; simp [assocGet] at h
    · simp [assocGet, hk] at h
      simp [assocErase, hk, ih h]

end AssocLemmas

/-- C5: the ref-count registry never goes negative and never throws
(decrementing an absent id is a no-op and all stored counters stay at least
1), and after two increments of a fresh id the first decrement does not fire
the release notification, the second fires it and erases the counter, and
any further decrement is a silent no-op — the notification fires exactly
once, after exactly two decrements. -/
theorem refcount_registry_c5 :
    (∀ (m : List (Int × Int)) (id : Int), assocGet m id = none →
      decrementUserdataRefCount m id = (m, false))
    ∧ (∀ (m : List (Int × Int)) (id : Int), (∀ p ∈ m, 1 ≤ p.2) →
      (∀ p ∈ incrementUserdataRefCount m id, 1 ≤ p.2)
      ∧ (∀ p ∈ (decrementUserdataRefCount m id).1, 1 ≤ p.2))
    ∧ (∀ (m : List (Int × Int)) (id : Int), assocGet m id = none →
      (decrementUserdataRefCount
        (incrementUserdataRefCount (incrementUserdataRefCount m id) id) id).2 = false
      ∧ (decrementUserdataRefCount
          (decrementUserdataRefCount
            (incrementUserdataRefCount (incrementUserdataRefCount m id) id) id).1 id).2
          = true
      ∧ assocGet
          (decrementUserdataRefCount
            (decrementUserdataRefCount
              (incrementUserdataRefCount (incrementUserdataRefCount m id) id) id).1
            id).1 id = none
      ∧ decrementUserdataRefCount
          (decrementUserdataRefCount
            (decrementUserdataRefCount
              (incrementUserdataRefCount (incrementUserdataRefCount m id) id) id).1
            id).1 id
          = ((decrementUserdataRefCount
              (decrementUserdataRefCount
                (incrementUserdataRefCount (incrementUserdataRefCount m id) id) id).1
              id).1, false)) := by
  refine ⟨?_, ?_, ?_⟩
  · intro m id h
    simp [decrementUserdataRefCount, h]
  · intro m id hinv
    constructor
    · intro p hp
      rcases hg : assocGet m id with _ | c
      · simp only [incrementUserdataRefCount, hg] at hp
        rcases mem_assocSet hp with h1 | h1
        · simp [h1]
        · exact hinv p h1
      · simp only [incrementUserdataRefCount, hg] at hp
        rcases mem_assocSet hp with h1 | h1
        · have hc1 : 1 ≤ c := hinv _ (assocGet_mem hg)
          simp [h1]; omega
        · exact hinv p h1
    · intro p hp
      rcases hg : assocGet m id with _ | c
      · simp only [decrementUserdataRefCount, hg] at hp
        exact hinv p hp
      · simp only [decrementUserdataRefCount, hg] at hp
        have hc1 : 1 ≤ c := hinv _ (assocGet_mem hg)
        by_cases hz : c - 1 ≤ 0
        · rw [if_pos hz] at hp
          exact hinv p (mem_assocErase hp)
        · rw [if_neg hz] at hp
          rcases mem_assocSet hp with h1 | h1
          · simp [h1]; omega
          · exact hinv p h1
  · intro m id h
    have h1 : incrementUserdataRefCount m id = m ++ [(id, 1)] := by
      simp [incrementUserdataRefCount, h, assocSet_of_none _ h]
    have hget1 : assocGet (m ++ [(id, 1)]) id = some 1 := by
      rw [assocGet_append_of_none _ h]; simp [assocGet]
    have h2 : incrementUserdataRefCount (m ++ [(id, 1)]) id = m ++ [(id, 2)] := by
      simp only [incrementUserdataRefCount, hget1]
      have := assocSet_append_of_none (k := id) 1 2 ([] : List (Int × Int)) h
      simpa using this
    have hget2 : assocGet (m ++ [(id, 2)]) id = some 2 := by
      rw [assocGet_append_of_none _ h]; simp [assocGet]
    have hd1 : decrementUserdataRefCount (m ++ [(id, 2)]) id = (m ++ [(id, 1)], false) := by
      simp only [decrementUserdataRefCount, hget2]
      norm_num
      have := assocSet_append_of_none (k := id) 2 1 ([] : List (Int × Int)) h
      simpa using this
    have hd2 : decrementUserdataRefCount (m ++ [(id, 1)], false).1 id = (m, true) := by
      simp only [decrementUserdataRefCount, hget1]
      norm_num
      have := assocErase_append_of_none (k := id) 1 ([] : List (Int × Int)) h
      simpa using this
    rw [h1, h2, hd1, hd2]
    refine ⟨rfl, by simp, h, ?_⟩
    simp [decrementUserdataRefCount, h]

/-- Concrete instantiation of `refcount_registry_c5` at the empty registry
and id 0, discharging its hypotheses. -/
theorem refcount_registry_c5_witness :
    decrementUserdataRefCount [] 0 = ([], false)
    ∧ (∀ p ∈ incrementUserdataRefCount [] 0, 1 ≤ p.2)
    ∧ (decrementUserdataRefCount
        (incrementUserdataRefCount (incrementUserdataRefCount [] 0) 0) 0).2 = false :=
  ⟨refcount_registry_c5.1 [] 0 rfl,
   (refcount_registry_c5.2.1 [] 0 (by simp)).1,
   (refcount_registry_c5.2.2 [] 0 rfl).1⟩

theorem popTop_append (st l : List LuaNativeValue) : popTop (st ++ l) l.length = st := by
  unfold popTop
  have hlen : (st ++ l).length - l.length = st.length := by simp
  rw [hlen]
  exact List.take_left st l

/-- C8: both execution entry points (source and bytecode) leave the stack at
its pre-call depth, on the success path and on every failure path. -/
theorem execute_restores_stack_c8 :
    ∀ (s : RuntimeState) (stack : List LuaNativeValue) (outcome : ExecOutcome)
      (bc : List Nat) (chunkName : String),
      (executeScript s stack outcome).2 = stack
      ∧ (loadBytecode s bc chunkName stack outcome).2 = stack := by
  have hpop := popTop_append
  intro s stack outcome bc chunkName
  constructor
  · cases outcome with
    | loadError msg => simpa using hpop stack [LuaNativeValue.str msg]
    | runError msg => simpa using hpop stack [LuaNativeValue.str msg]
    | done results =>
      unfold executeScript
      have hlen : (stack ++ results).length - stack.length = results.length := by simp
      rcases hconv : toLuaValueList results with e | vs <;>
        simp [hconv, hlen, hpop stack results]
  · by_cases hbc : bc.isEmpty
    · simp [loadBytecode, hbc]
    · cases outcome with
      | loadError msg => simp [loadBytecode, hbc]; simpa using hpop stack [LuaNativeValue.str msg]
      | runError msg => simp [loadBytecode, hbc]; simpa using hpop stack [LuaNativeValue.str msg]
      | done results =>
        unfold loadBytecode
        have hlen : (stack ++ results).length - stack.length = results.length := by simp
        rcases hconv : toLuaValueList results with e | vs <;>
          simp [hbc, hconv, hlen, hpop stack results]

theorem registerFunction_registerFunction (s : RuntimeState) (name : String)
    (f1 f2 : HostFn) :
    registerFunction (registerFunction s name f1) name f2 = registerFunction s name f2 := by
  simp [registerFunction, assocSet_assocSet]

/-- C4: registering `f1` then `f2` under one name leaves the runtime in
exactly the state a single registration of `f2` produces, so a call of the
global resolves to `f2` alone; and when `f2` succeeds on the marshalled
arguments, the call returns `f2`'s marshalled result. -/
theorem reregistration_replaces_c4 :
    (∀ (s : RuntimeState) (name : String) (f1 f2 : HostFn) (args : List LuaNativeValue),
      callGlobal (registerFunction (registerFunction s name f1) name f2) name args
        = callGlobal (registerFunction s name f2) name args)
    ∧ (∀ (s : RuntimeState) (name : String) (f1 f2 : HostFn) (args : List LuaNativeValue)
        (vals : List Value) (r : Value) (lv : LuaNativeValue),
        s.asyncMode = false →
        toLuaValueList args = .ok vals →
        f2 vals = .ok r →
        pushLuaValue r 0 = .ok lv →
        callGlobal (registerFunction (registerFunction s name f1) name f2) name args
          = .ok lv) := by
  constructor
  · intro s name f1 f2 args
    rw [registerFunction_registerFunction]
  · intro s name f1 f2 args vals r lv hasync hargs hf2 hpush
    rw [registerFunction_registerFunction]
    have hglob : assocGet (registerFunction s name f2).globals name = some name := by
      simp [registerFunction, assocGet_assocSet_self]
    have hfn : assocGet (registerFunction s name f2).hostFunctions name = some f2 := by
      simp [registerFunction, assocGet_assocSet_self]
    have hmode : (registerFunction s name f2).asyncMode = false := by
      simpa [registerFunction] using hasync
    simp [callGlobal, hglob, luaCallHostFunction, hfn, hmode, hargs, hf2, hpush]

/-- Concrete instantiation of `reregistration_replaces_c4`: registering the
constant 1 then the constant 2 under `f` and calling `f()` yields 2. -/
theorem reregistration_replaces_c4_witness :
    callGlobal
      (registerFunction
        (registerFunction ⟨[], [], false⟩ "f" (fun _ => .ok (Value.int64 1)))
        "f" (fun _ => .ok (Value.int64 2)))
      "f" [] = .ok (LuaNativeValue.intNum 2) :=
  reregistration_replaces_c4.2 ⟨[], [], false⟩ "f"
    (fun _ => .ok (Value.int64 1)) (fun _ => .ok (Value.int64 2)) [] []
    (Value.int64 2) (LuaNativeValue.intNum 2) rfl rfl rfl rfl

/-- C6: with the async/off-thread flag set, every call of a registered host
function from embedded code is rejected with the dedicated
"callbacks not available in async mode" error before the function is
invoked, while an execution that makes no host calls (its outcome is plain
completed results) still succeeds in that mode. -/
theorem async_exclusivity_c6 :
    (∀ (s : RuntimeState) (name : String) (fn : HostFn) (args : List LuaNativeValue),
      s.asyncMode = true →
      callGlobal (registerFunction s name fn) name args
        = .error ("JS callbacks are not available in async mode (called '" ++ name ++ "')"))
    ∧ (∀ (s : RuntimeState) (stack results : List LuaNativeValue) (vals : List Value),
      s.asyncMode = true →
      toLuaValueList results = .ok vals →
      executeScript s stack (.done results) = (.values vals, stack)) := by
  constructor
  · intro s name fn args hasync
    have hglob : assocGet (registerFunction s name fn).globals name = some name := by
      simp [registerFunction, assocGet_assocSet_self]
    have hfn : assocGet (registerFunction s name fn).hostFunctions name = some fn := by
      simp [registerFunction, assocGet_assocSet_self]
    have hmode : (registerFunction s name fn).asyncMode = true := by
      simpa [registerFunction] using hasync
    simp [callGlobal, hglob, luaCallHostFunction, hfn, hmode]
  · intro s stack results vals _ hconv
    have hlen : (stack ++ results).length - stack.length = results.length := by simp
    simp [executeScript, hconv, hlen, popTop_append stack results]

/-- Concrete instantiation of `async_exclusivity_c6`: in async mode the call
of the registered global errors, and a pure execution still succeeds. -/
theorem async_exclusivity_c6_witness :
    callGlobal (registerFunction ⟨[], [], true⟩ "f" (fun _ => .ok (Value.int64 2))) "f" []
      = .error ("JS callbacks are not available in async mode (called '" ++ "f" ++ "')")
    ∧ executeScript ⟨[], [], true⟩ [] (.done [LuaNativeValue.intNum 7])
      = (.values [Value.int64 7], []) :=
  ⟨async_exclusivity_c6.1 ⟨[], [], true⟩ "f" (fun _ => .ok (Value.int64 2)) [] rfl,
   async_exclusivity_c6.2 ⟨[], [], true⟩ [] [LuaNativeValue.intNum 7] [Value.int64 7]
     rfl rfl⟩

/-- C7: resuming a coroutine whose observable state is `Dead` produces a
defined error result with `Dead` status, never enters `lua_resume`, leaves
the thread unchanged, and a subsequent status query still reports `Dead`. -/
theorem dead_coroutine_resume_c7 :
    ∀ (t : CoThread) (args : List Value) (beh : ResumeBehavior),
      getCoroutineStatus t = .Dead →
      (resumeCoroutine t args beh).1.status = .Dead
      ∧ (resumeCoroutine t args beh).1.error.isSome = true
      ∧ (resumeCoroutine t args beh).2.1 = t
      ∧ (resumeCoroutine t args beh).2.2 = false
      ∧ getCoroutineStatus (resumeCoroutine t args beh).2.1 = .Dead := by
  intro t args beh hdead
  obtain ⟨valid, status, stackSize⟩ := t
  cases valid with
  | false =>
    refine ⟨?_, ?_, ?_, ?_, ?_⟩ <;> simp [resumeCoroutine, getCoroutineStatus]
  | true =>
    cases status with
    | statusOk =>
      have hz : stackSize = 0 := by
        by_contra hne
        simp [getCoroutineStatus, hne] at hdead
      subst hz
      refine ⟨?_, ?_, ?_, ?_, ?_⟩ <;> simp [resumeCoroutine, getCoroutineStatus]
    | statusYield =>
      simp [getCoroutineStatus] at hdead
    | statusErr =>
      refine ⟨?_, ?_, ?_, ?_, ?_⟩ <;> simp [resumeCoroutine, getCoroutineStatus]

/-- Concrete instantiation of `dead_coroutine_resume_c7` on an errored-out
thread. -/
theorem dead_coroutine_resume_c7_witness :
    getCoroutineStatus ⟨true, .statusErr, 0⟩ = .Dead
    ∧ (resumeCoroutine ⟨true, .statusErr, 0⟩ [] (.fails "boom")).1.status = .Dead
    ∧ (resumeCoroutine ⟨true, .statusErr, 0⟩ [] (.fails "boom")).2.1
        = (⟨true, .statusErr, 0⟩ : CoThread) :=
  ⟨by decide,
   (dead_coroutine_resume_c7 ⟨true, .statusErr, 0⟩ [] (.fails "boom") (by decide)).1,
   (dead_coroutine_resume_c7 ⟨true, .statusErr, 0⟩ [] (.fails "boom") (by decide)).2.2.1⟩

theorem except_bind_error {α β : Type} (msg : String) (f : α → Except String β) :
    (Except.error msg : Except String α) >>= f = .error msg := rfl

theorem except_bind_ok {α β : Type} (x : α) (f : α → Except String β) :
    (Except.ok x : Except String α) >>= f = f x := rfl

theorem userdataIndex_of_getter_error (g : Int → String → Except String Value)
    (refId : Int) (key msg : String) (h : g refId key = .error msg) :
    userdataIndex (some g) refId key
      = .error ("Error reading property '" ++ key ++ "': " ++ msg) := by
  simp only [userdataIndex, h, except_bind_error]

theorem userdataIndex_of_getter_ok (g : Int → String → Except String Value)
    (refId : Int) (key : String) (r : Value) (lv : LuaNativeValue)
    (h : g refId key = .ok r) (hp : pushLuaValue r 0 = .ok lv) :
    userdataIndex (some g) refId key = .ok lv := by
  simp only [userdataIndex, h, except_bind_ok, hp]

/-- C9: a property read through the proxy `__index` on a non-readable entry
raises the defined `Error reading property '<key>': userdata is not
readable` error; on a readable entry it delegates to the host getter and
returns the marshalled property; and any error the configured getter throws
is caught and re-raised as a Lua-level error carrying the original message,
never escaping as a raw fault. -/
theorem proxy_property_get_c9 :
    (∀ (ud : List (Int × HostObject)) (refId : Int) (key : String) (o : HostObject),
      assocGet ud refId = some o → o.readable = false →
      userdataIndex (some (propertyGetter ud)) refId key
        = .error ("Error reading property '" ++ key ++ "': " ++ "userdata is not readable"))
    ∧ (∀ (ud : List (Int × HostObject)) (refId : Int) (key : String) (o : HostObject)
        (lv : LuaNativeValue),
      assocGet ud refId = some o → o.readable = true →
      pushLuaValue (o.getProp key) 0 = .ok lv →
      userdataIndex (some (propertyGetter ud)) refId key = .ok lv)
    ∧ (∀ (g : Int → String → Except String Value) (refId : Int) (key : String)
        (msg : String),
      g refId key = .error msg →
      userdataIndex (some g) refId key
        = .error ("Error reading property '" ++ key ++ "': " ++ msg)) := by
  refine ⟨?_, ?_, ?_⟩
  · intro ud refId key o hget hro
    have hg : propertyGetter ud refId key = .error "userdata is not readable" := by
      simp [propertyGetter, hget, hro]
    exact userdataIndex_of_getter_error _ _ _ _ hg
  · intro ud refId key o lv hget hro hpush
    have hg : propertyGetter ud refId key = .ok (o.getProp key) := by
      simp [propertyGetter, hget, hro]
    exact userdataIndex_of_getter_ok _ _ _ _ _ hg hpush
  · intro g refId key msg hg
    exact userdataIndex_of_getter_error _ _ _ _ hg

/-- Concrete instantiation of `proxy_property_get_c9`: a non-readable entry,
a readable entry, and a throwing getter. -/
theorem proxy_property_get_c9_witness :
    userdataIndex (some (propertyGetter [(1, ⟨false, false, fun _ => Value.nil⟩)])) 1 "p"
      = .error ("Error reading property '" ++ "p" ++ "': userdata is not readable")
    ∧ userdataIndex
        (some (propertyGetter [(1, ⟨true, false, fun _ => Value.int64 5⟩)])) 1 "p"
      = .ok (LuaNativeValue.intNum 5)
    ∧ userdataIndex (some (fun _ _ => .error "boom")) 1 "p"
      = .error ("Error reading property '" ++ "p" ++ "': " ++ "boom") :=
  ⟨proxy_property_get_c9.1 [(1, ⟨false, false, fun _ => Value.nil⟩)] 1 "p"
     ⟨false, false, fun _ => Value.nil⟩ rfl rfl,
   proxy_property_get_c9.2.1 [(1, ⟨true, false, fun _ => Value.int64 5⟩)] 1 "p"
     ⟨true, false, fun _ => Value.int64 5⟩ (LuaNativeValue.intNum 5) rfl rfl rfl,
   proxy_property_get_c9.2.2 (fun _ _ => .error "boom") 1 "p" "boom" rfl⟩

/-- C10: `ToLuaValue` is total on the unhandled stack types (the `default`
case yields `Nil` instead of failing, at every depth the conversion reaches)
and the map branch drops every entry whose key is neither a string nor a
number before touching its value, so such entries can neither surface in the
result nor cause an error: the fold is unchanged by filtering them away. -/
theorem tolua_totality_c10 :
    (∀ d : Nat, d ≤ kMaxDepth → toLuaValue LuaNativeValue.lightUserdata d = .ok Value.nil)
    ∧ (∀ (acc : List (String × Value)) (entries : List (LuaKey × LuaNativeValue)) (d : Nat),
      toLuaMapGo acc entries d
        = toLuaMapGo acc (entries.filter (fun e => (stringifyKey e.1).isSome)) d) := by
  constructor
  · intro d hd
    have : ¬ d > kMaxDepth := by omega
    simp [toLuaValue, this]
  · intro acc entries d
    induction entries generalizing acc with
    | nil => rfl
    | cons e t ih =>
      obtain ⟨k, v⟩ := e
      rcases hk : stringifyKey k with _ | s
      · have hp : (fun e => (stringifyKey e.1).isSome) ((k, v) : LuaKey × LuaNativeValue)
            = false := by simp [hk]
        simp only [toLuaMapGo, hk, List.filter_cons, hp, if_false, Bool.false_eq_true]
        exact ih acc
      · have hp : (fun e => (stringifyKey e.1).isSome) ((k, v) : LuaKey × LuaNativeValue)
            = true := by simp [hk]
        simp only [toLuaMapGo, hk, List.filter_cons, hp, if_true]
        rcases hv : toLuaValue v d with e1 | x
        · simp only [hv, except_bind_error]
        · simp only [hv, except_bind_ok]
          exact ih _

/-- Concrete instantiation of `tolua_totality_c10`: the default case at
depth 0 and a boolean-keyed entry being skipped. -/
theorem tolua_totality_c10_witness :
    toLuaValue LuaNativeValue.lightUserdata 0 = .ok Value.nil
    ∧ toLuaMapGo [] [(LuaKey.boolKey true, LuaNativeValue.intNum 3)] 1
      = toLuaMapGo []
          ([(LuaKey.boolKey true, LuaNativeValue.intNum 3)].filter
            (fun e => (stringifyKey e.1).isSome)) 1 :=
  ⟨tolua_totality_c10.1 0 (by decide),
   tolua_totality_c10.2 [] [(LuaKey.boolKey true, LuaNativeValue.intNum 3)] 1⟩

theorem toLuaValue_nestLua_ok :
    ∀ k d, d + k ≤ kMaxDepth → ∃ v, toLuaValue (nestLua k) d = .ok v := by
  intro k
  induction k with
  | zero =>
    intro d hd
    refine ⟨Value.boolean true, ?_⟩
    simp only [nestLua, toLuaValue]
    rw [if_neg (by omega)]
  | succ k ih =>
    intro d hd
    obtain ⟨v, hv⟩ := ih (d + 1) (by omega)
    refine ⟨Value.arr [v], ?_⟩
    simp only [nestLua, toLuaValue, toLuaSeqVals]
    rw [if_neg (by omega)]
    simp [isSequentialArray, isSequentialArrayGo, hv, except_bind_ok]

theorem toLuaValue_nestLua_err :
    ∀ k d, kMaxDepth < d + k → toLuaValue (nestLua k) d = .error depthErrMsg := by
  intro k
  induction k with
  | zero =>
    intro d hd
    simp only [nestLua, toLuaValue]
    rw [if_pos (by omega)]
  | succ k ih =>
    intro d hd
    by_cases h : d > kMaxDepth
    · cases k0 : nestLua (k + 1) <;> simp only [toLuaValue] <;> rw [if_pos h]
    · have hv := ih (d + 1) (by omega)
      simp only [nestLua, toLuaValue, toLuaSeqVals]
      rw [if_neg h]
      simp [isSequentialArray, isSequentialArrayGo, hv, except_bind_error]

theorem pushLuaValue_nestValue_ok :
    ∀ k d, d + k ≤ kMaxDepth →
      ∃ lv, pushLuaValue (nestValue k) d = .ok lv ∧ isNilLNV lv = false := by
  intro k
  induction k with
  | zero =>
    intro d hd
    refine ⟨LuaNativeValue.boolean true, ?_, rfl⟩
    simp only [nestValue, pushLuaValue]
    rw [if_neg (by omega)]
  | succ k ih =>
    intro d hd
    obtain ⟨lv, hlv, hnil⟩ := ih (d + 1) (by omega)
    refine ⟨LuaNativeValue.table false 0 [(LuaKey.intKey 1, lv)], ?_, rfl⟩
    simp only [nestValue, pushLuaValue, pushSeqEntries]
    rw [if_neg (by omega)]
    simp [hlv, hnil, except_bind_ok]

theorem pushLuaValue_nestValue_err :
    ∀ k d, kMaxDepth < d + k → pushLuaValue (nestValue k) d = .error depthErrMsg := by
  intro k
  induction k with
  | zero =>
    intro d hd
    simp only [nestValue, pushLuaValue]
    rw [if_pos (by omega)]
  | succ k ih =>
    intro d hd
    by_cases h : d > kMaxDepth
    · cases k0 : nestValue (k + 1) <;> simp only [pushLuaValue] <;> rw [if_pos h]
    · have hv := ih (d + 1) (by omega)
      simp only [nestValue, pushLuaValue, pushSeqEntries]
      rw [if_neg h]
      simp [hv, except_bind_error]

/-- C3: both conversion directions, applied to a chain of `k` nested
aggregates around a scalar, succeed exactly when `k ≤ 100` — so 100 levels
of nesting succeed while 101 levels fail with the "nesting depth" error
message — and the fixed maximum is 100. -/
theorem depth_boundary_c3 :
    (∀ k : Nat, (∃ v, toLuaValue (nestLua k) 0 = .ok v) ↔ k ≤ kMaxDepth)
    ∧ (∀ k : Nat, (∃ lv, pushLuaValue (nestValue k) 0 = .ok lv) ↔ k ≤ kMaxDepth)
    ∧ (∃ v, toLuaValue (nestLua 100) 0 = .ok v)
    ∧ toLuaValue (nestLua 101) 0 = .error depthErrMsg
    ∧ (∃ lv, pushLuaValue (nestValue 100) 0 = .ok lv)
    ∧ pushLuaValue (nestValue 101) 0 = .error depthErrMsg
    ∧ kMaxDepth = 100 := by
  refine ⟨?_, ?_, ?_, ?_, ?_, ?_, rfl⟩
  · intro k
    constructor
    · rintro ⟨v, hv⟩
      by_contra hk
      rw [toLuaValue_nestLua_err k 0 (by omega)] at hv
      cases hv
    · intro hk
      exact toLuaValue_nestLua_ok k 0 (by omega)
  · intro k
    constructor
    · rintro ⟨lv, hlv⟩
      by_contra hk
      rw [pushLuaValue_nestValue_err k 0 (by omega)] at hlv
      cases hlv
    · intro hk
      obtain ⟨lv, hlv, _⟩ := pushLuaValue_nestValue_ok k 0 (by omega)
      exact ⟨lv, hlv⟩
  · exact toLuaValue_nestLua_ok 100 0 (by norm_num [kMaxDepth])
  · exact toLuaValue_nestLua_err 101 0 (by norm_num [kMaxDepth])
  · obtain ⟨lv, hlv, _⟩ := pushLuaValue_nestValue_ok 100 0 (by norm_num [kMaxDepth])
    exact ⟨lv, hlv⟩
  · exact pushLuaValue_nestValue_err 101 0 (by norm_num [kMaxDepth])

/-- The contiguous integer key run `e, e+1, ..., e+n-1`. -/
def seqKeysFrom : Int → Nat → List LuaKey
  | _, 0 => []
  | e, n + 1 => LuaKey.intKey e :: seqKeysFrom (e + 1) n

theorem seqKeysFrom_length (e : Int) (n : Nat) : (seqKeysFrom e n).length = n := by
  induction n generalizing e with
  | zero => rfl
  | succ n ih => simp [seqKeysFrom, ih]

theorem isSequentialArrayGo_iff (entries : List (LuaKey × LuaNativeValue)) :
    ∀ e : Int, isSequentialArrayGo entries e = true
      ↔ entries.map Prod.fst = seqKeysFrom e entries.length := by
  induction entries with
  | nil => intro e; simp [isSequentialArrayGo, seqKeysFrom]
  | cons p t ih =>
    intro e
    obtain ⟨k, v⟩ := p
    cases k with
    | intKey n =>
      by_cases hn : n = e
      · subst hn
        simp [isSequentialArrayGo, seqKeysFrom, ih]
      · simp [isSequentialArrayGo, seqKeysFrom, hn]
    | strKey s => simp [isSequentialArrayGo, seqKeysFrom]
    | floatKey r => simp [isSequentialArrayGo, seqKeysFrom]
    | boolKey b => simp [isSequentialArrayGo, seqKeysFrom]
    | otherKey i => simp [isSequentialArrayGo, seqKeysFrom]

theorem toLuaSeqVals_length :
    ∀ (entries : List (LuaKey × LuaNativeValue)) (d : Nat) (items : List Value),
      toLuaSeqVals entries d = .ok items → items.length = entries.length := by
  intro entries
  induction entries with
  | nil =>
    intro d items h
    simp only [toLuaSeqVals] at h
    injection h with h
    subst h
    rfl
  | cons p t ih =>
    intro d items h
    obtain ⟨k, v⟩ := p
    simp only [toLuaSeqVals] at h
    rcases hv : toLuaValue v d with e1 | x
    · rw [hv, except_bind_error] at h; cases h
    · rw [hv, except_bind_ok] at h
      rcases ht : toLuaSeqVals t d with e2 | xs
      · rw [ht, except_bind_error] at h; cases h
      · rw [ht, except_bind_ok] at h
        injection h with h
        subst h
        simp [ih d xs ht]

theorem mem_keys_emplace (acc : List (String × Value)) (k : String) (v : Value)
    (s : String) :
    s ∈ (emplace acc k v).map Prod.fst ↔ s ∈ acc.map Prod.fst ∨ s = k := by
  unfold emplace
  by_cases h : acc.any (fun p => p.1 = k)
  · rw [if_pos h]
    constructor
    · exact Or.inl
    · rintro (hs | rfl)
      · exact hs
      · obtain ⟨p, hp, hpk⟩ := List.any_eq_true.mp h
        have hk : p.1 = s := of_decide_eq_true hpk
        exact hk ▸ List.mem_map_of_mem Prod.fst hp
  · rw [if_neg h]
    simp

theorem toLuaMapGo_keys :
    ∀ (entries : List (LuaKey × LuaNativeValue)) (acc : List (String × Value))
      (d : Nat) (kvs : List (String × Value)),
      toLuaMapGo acc entries d = .ok kvs →
      ∀ s : String, s ∈ kvs.map Prod.fst
        ↔ s ∈ acc.map Prod.fst ∨ ∃ e ∈ entries, stringifyKey e.1 = some s := by
  intro entries
  induction entries with
  | nil =>
    intro acc d kvs h s
    simp only [toLuaMapGo] at h
    injection h with h
    subst h
    simp
  | cons p t ih =>
    intro acc d kvs h s
    obtain ⟨k, v⟩ := p
    rcases hk : stringifyKey k with _ | s0
    · simp only [toLuaMapGo, hk] at h
      rw [ih acc d kvs h s]
      simp only [List.mem_cons]
      constructor
      · rintro (hs | ⟨e, he, hse⟩)
        · exact Or.inl hs
        · exact Or.inr ⟨e, Or.inr he, hse⟩
      · rintro (hs | ⟨e, he | he, hse⟩)
        · exact Or.inl hs
        · subst he; rw [hk] at hse; cases hse
        · exact Or.inr ⟨e, he, hse⟩
    · simp only [toLuaMapGo, hk] at h
      rcases hv : toLuaValue v d with e1 | x
      · rw [hv, except_bind_error] at h; cases h
      · rw [hv, except_bind_ok] at h
        rw [ih (emplace acc s0 x) d kvs h s, mem_keys_emplace]
        simp only [List.mem_cons]
        constructor
        · rintro ((hs | rfl) | ⟨e, he, hse⟩)
          · exact Or.inl hs
          · exact Or.inr ⟨(k, v), Or.inl rfl, by simpa using hk⟩
          · exact Or.inr ⟨e, Or.inr he, hse⟩
        · rintro (hs | ⟨e, he | he, hse⟩)
          · exact Or.inl (Or.inl hs)
          · subst he
            rw [hk] at hse
            injection hse with hse
            exact Or.inl (Or.inr hse.symm)
          · exact Or.inr ⟨e, he, hse⟩

/-- C2: for a metatable-less table (given as its `lua_next` traversal, with
the Lua guarantee — stated as the hypothesis `hord` — that a traversal whose
key multiset is exactly the contiguous run `1..N` lists those keys in
ascending order), a successful conversion yields a `Sequence` of length `N`
exactly when the key multiset is `{1,...,N}` (any `N ≥ 0`, the empty table
included); in every other case it yields a `Map` whose key set is exactly
the stringifications of the table's string and integer keys. -/
theorem array_map_classification_c2 :
    ∀ (tid : Int) (entries : List (LuaKey × LuaNativeValue)) (v : Value),
      ((entries.map Prod.fst).Perm (seqKeysFrom 1 entries.length) →
        entries.map Prod.fst = seqKeysFrom 1 entries.length) →
      toLuaValue (.table false tid entries) 0 = .ok v →
      (∀ N : Nat, (∃ items, v = Value.arr items ∧ items.length = N)
        ↔ (entries.map Prod.fst).Perm (seqKeysFrom 1 N))
      ∧ (isSequentialArray entries = false →
        ∃ kvs, v = Value.map kvs
          ∧ ∀ s : String, s ∈ kvs.map Prod.fst
              ↔ ∃ e ∈ entries, stringifyKey e.1 = some s) := by
  intro tid entries v hord hconv
  have hnd : ¬ (0 > kMaxDepth) := by decide
  simp only [toLuaValue, hnd, if_false, Bool.false_eq_true] at hconv
  by_cases hseq : isSequentialArray entries = true
  · rw [if_pos hseq] at hconv
    rcases hvals : toLuaSeqVals entries 1 with e1 | items
    · rw [hvals, except_bind_error] at hconv; cases hconv
    · rw [hvals, except_bind_ok] at hconv
      injection hconv with hconv
      subst hconv
      have hlen : items.length = entries.length := toLuaSeqVals_length entries 1 items hvals
      have hkeys : entries.map Prod.fst = seqKeysFrom 1 entries.length :=
        (isSequentialArrayGo_iff entries 1).mp hseq
      constructor
      · intro N
        constructor
        · rintro ⟨items0, heq, hlen0⟩
          injection heq with heq
          subst heq
          rw [← hlen0, hlen, hkeys]
        · intro hperm
          have hN : entries.length = N := by
            have h1 := hperm.length_eq
            rw [List.length_map, seqKeysFrom_length] at h1
            exact h1
          exact ⟨items, rfl, by rw [hlen, hN]⟩
      · intro hfalse
        rw [hseq] at hfalse
        cases hfalse
  · rw [if_neg hseq] at hconv
    rcases hkvs : toLuaMapGo [] entries 1 with e1 | kvs
    · rw [hkvs, except_bind_error] at hconv; cases hconv
    · rw [hkvs, except_bind_ok] at hconv
      injection hconv with hconv
      subst hconv
      have hseqf : isSequentialArray entries = false := by
        cases hb : isSequentialArray entries
        · rfl
        · exact absurd hb hseq
      constructor
      · intro N
        constructor
        · rintro ⟨items0, heq, _⟩
          cases heq
        · intro hperm
          have hN : entries.length = N := by
            have h1 := hperm.length_eq
            rw [List.length_map, seqKeysFrom_length] at h1
            exact h1
          rw [← hN] at hperm
          have := (isSequentialArrayGo_iff entries 1).mpr (hord hperm)
          rw [isSequentialArray] at hseqf
          rw [this] at hseqf
          cases hseqf
      · intro _
        refine ⟨kvs, rfl, ?_⟩
        intro s
        rw [toLuaMapGo_keys entries [] 1 kvs hkvs s]
        simp

/-- Concrete instantiation of `array_map_classification_c2` on the singleton
table with key 1: the conversion yields a sequence of length 1, and the key
multiset is the run `1..1`. -/
theorem array_map_classification_c2_witness :
    ∃ items, Value.arr [Value.boolean true] = Value.arr items ∧ items.length = 1 :=
  ((array_map_classification_c2 0 [(LuaKey.intKey 1, LuaNativeValue.boolean true)]
      (Value.arr [Value.boolean true]) (fun _ => rfl) rfl).1 1).mpr (List.Perm.refl _)

theorem rtList_mem :
    ∀ (items : List Value), rtList items = true →
      ∀ v ∈ items, isNilValue v = false ∧ roundTrippable v = true := by
  intro items
  induction items with
  | nil => intro h v hv; cases hv
  | cons a t ih =>
    intro h v hv
    simp only [rtList, Bool.and_eq_true, Bool.not_eq_true'] at h
    rcases List.mem_cons.mp hv with hv | hv
    · subst hv; exact ⟨h.1.1, h.1.2⟩
    · exact ih h.2 v hv

theorem rtMap_mem :
    ∀ (kvs : List (String × Value)), rtMap kvs = true →
      ∀ p ∈ kvs, isNilValue p.2 = false ∧ roundTrippable p.2 = true := by
  intro kvs
  induction kvs with
  | nil => intro h p hp; cases hp
  | cons a t ih =>
    intro h p hp
    obtain ⟨k, v⟩ := a
    simp only [rtMap, Bool.and_eq_true, Bool.not_eq_true'] at h
    rcases List.mem_cons.mp hp with hp | hp
    · subst hp; exact ⟨h.1.1, h.1.2⟩
    · exact ih h.2 p hp

theorem valueDepth_le_depthOfList :
    ∀ (items : List Value) (v : Value), v ∈ items → valueDepth v ≤ depthOfList items := by
  intro items
  induction items with
  | nil => intro v hv; cases hv
  | cons a t ih =>
    intro v hv
    rcases List.mem_cons.mp hv with hv | hv
    · subst hv; simp [depthOfList]
    · simp only [depthOfList]
      exact le_max_of_le_right (ih v hv)

theorem valueDepth_le_depthOfMap :
    ∀ (kvs : List (String × Value)) (p : String × Value), p ∈ kvs →
      valueDepth p.2 ≤ depthOfMap kvs := by
  intro kvs
  induction kvs with
  | nil => intro p hp; cases hp
  | cons a t ih =>
    intro p hp
    obtain ⟨k, v⟩ := a
    rcases List.mem_cons.mp hp with hp | hp
    · subst hp; simp [depthOfMap]
    · simp only [depthOfMap]
      exact le_max_of_le_right (ih p hp)

/-- The entry list `lua_rawseti` produces for a run of non-nil pushed items:
keys `idx, idx+1, ...` in order. -/
def zipIdx : Int → List LuaNativeValue → List (LuaKey × LuaNativeValue)
  | _, [] => []
  | idx, lv :: t => (LuaKey.intKey idx, lv) :: zipIdx (idx + 1) t

theorem isSequentialArrayGo_zipIdx (lvs : List LuaNativeValue) :
    ∀ e : Int, isSequentialArrayGo (zipIdx e lvs) e = true := by
  induction lvs with
  | nil => intro e; rfl
  | cons lv t ih => intro e; simp [zipIdx, isSequentialArrayGo, ih]

theorem pushSeq_roundtrip :
    ∀ (items : List Value) (idx : Int) (d : Nat),
      (∀ v ∈ items, ∃ lv, pushLuaValue v d = .ok lv ∧ toLuaValue lv d = .ok v
        ∧ isNilLNV lv = false) →
      ∃ lvs, pushSeqEntries items idx d = .ok (zipIdx idx lvs)
        ∧ toLuaSeqVals (zipIdx idx lvs) d = .ok items := by
  intro items
  induction items with
  | nil =>
    intro idx d _
    exact ⟨[], rfl, rfl⟩
  | cons v t ih =>
    intro idx d hpt
    obtain ⟨lv, hpush, hback, hnil⟩ := hpt v (List.mem_cons_self v t)
    obtain ⟨lvs, hp, hb⟩ := ih (idx + 1) d (fun w hw => hpt w (List.mem_cons_of_mem v hw))
    refine ⟨lv :: lvs, ?_, ?_⟩
    · simp only [pushSeqEntries, hpush, except_bind_ok, hp, hnil, zipIdx]
      simp
    · simp only [zipIdx, toLuaSeqVals, hback, except_bind_ok, hb]

theorem pushMap_roundtrip :
    ∀ (kvs : List (String × Value)) (d : Nat),
      (∀ p ∈ kvs, ∃ lv, pushLuaValue p.2 d = .ok lv ∧ toLuaValue lv d = .ok p.2
        ∧ isNilLNV lv = false) →
      ∃ entries, pushMapEntries kvs d = .ok entries
        ∧ entries.map Prod.fst = kvs.map (fun p => LuaKey.strKey p.1)
        ∧ (∀ acc : List (String × Value),
            (∀ k ∈ kvs.map Prod.fst, acc.any (fun q => q.1 = k) = false) →
            distinctKeys (kvs.map Prod.fst) = true →
            toLuaMapGo acc entries d = .ok (acc ++ kvs)) := by
  intro kvs
  induction kvs with
  | nil =>
    intro d _
    refine ⟨[], rfl, rfl, ?_⟩
    intro acc _ _
    simp [toLuaMapGo]
  | cons q t ih =>
    intro d hpt
    obtain ⟨k, v⟩ := q
    obtain ⟨lv, hpush, hback, hnil⟩ := hpt (k, v) (List.mem_cons_self _ t)
    obtain ⟨entries, hp, hkeys, hmap⟩ :=
      ih d (fun w hw => hpt w (List.mem_cons_of_mem (k, v) hw))
    refine ⟨(LuaKey.strKey k, lv) :: entries, ?_, ?_, ?_⟩
    · simp only [pushMapEntries, hpush, except_bind_ok, hp, hnil]
      simp
    · simp [hkeys]
    · intro acc hany hdist
      simp only [List.map_cons, distinctKeys, Bool.and_eq_true, Bool.not_eq_true'] at hdist
      have hknotin : (t.map Prod.fst).any (fun q => q = k) = false := hdist.1
      have hacck : acc.any (fun q => q.1 = k) = false :=
        hany k (by simp)
      simp only [toLuaMapGo, stringifyKey, hback, except_bind_ok]
      have hemp : emplace acc k v = acc ++ [(k, v)] := by
        unfold emplace
        rw [hacck]
        simp
      rw [hemp]
      have hres := hmap (acc ++ [(k, v)]) ?_ hdist.2
      · rw [hres]
        simp
      · intro k1 hk1
        rw [List.any_append]
        have h1 : acc.any (fun q => q.1 = k1) = false :=
          hany k1 (List.mem_cons_of_mem _ hk1)
        have h2 : k1 ≠ k := by
          intro hkk
          subst hkk
          have hmem : (t.map Prod.fst).any (fun q => q = k1) = true :=
            List.any_eq_true.mpr ⟨k1, hk1, by simp⟩
          rw [hknotin] at hmem
          cases hmem
        have h3 : ([(k, v)] : List (String × Value)).any (fun q => q.1 = k1) = false := by
          simp [Ne.symm h2]
        rw [h1, h3]
        rfl

theorem roundtrip_aux :
    ∀ (n : Nat) (v : Value), sizeOf v ≤ n →
      ∀ d : Nat, roundTrippable v = true → valueDepth v + d ≤ kMaxDepth →
      ∃ lv, pushLuaValue v d = .ok lv ∧ toLuaValue lv d = .ok v
        ∧ (isNilValue v = false → isNilLNV lv = false) := by
  intro n
  induction n with
  | zero =>
    intro v hsz
    exfalso
    cases v <;> simp at hsz
  | succ n ih =>
    intro v hsz d hrt hdep
    have hdle : ¬ (d > kMaxDepth) := by omega
    cases v with
    | nil =>
      refine ⟨.nil, ?_, ?_, ?_⟩
      · simp only [pushLuaValue]; rw [if_neg hdle]
      · simp only [toLuaValue]; rw [if_neg hdle]
      · intro h; cases h
    | boolean b =>
      refine ⟨.boolean b, ?_, ?_, fun _ => rfl⟩
      · simp only [pushLuaValue]; rw [if_neg hdle]
      · simp only [toLuaValue]; rw [if_neg hdle]
    | int64 m =>
      refine ⟨.intNum m, ?_, ?_, fun _ => rfl⟩
      · simp only [pushLuaValue]; rw [if_neg hdle]
      · simp only [toLuaValue]; rw [if_neg hdle]
    | float64 x =>
      refine ⟨.floatNum x, ?_, ?_, fun _ => rfl⟩
      · simp only [pushLuaValue]; rw [if_neg hdle]
      · simp only [toLuaValue]; rw [if_neg hdle]
    | str s =>
      refine ⟨.str s, ?_, ?_, fun _ => rfl⟩
      · simp only [pushLuaValue]; rw [if_neg hdle]
      · simp only [toLuaValue]; rw [if_neg hdle]
    | arr items =>
      have hrtl : rtList items = true := by simpa [roundTrippable] using hrt
      have hmem : ∀ w ∈ items, ∃ lw, pushLuaValue w (d + 1) = .ok lw
          ∧ toLuaValue lw (d + 1) = .ok w ∧ isNilLNV lw = false := by
        intro w hw
        have h1 : sizeOf w < sizeOf items := List.sizeOf_lt_of_mem hw
        have h2 : sizeOf (Value.arr items) = 1 + sizeOf items := by simp
        have hsw : sizeOf w ≤ n := by omega
        have hprops := rtList_mem items hrtl w hw
        have hne : items.isEmpty = false := by
          cases items
          · cases hw
          · rfl
        have hdepw : valueDepth w + (d + 1) ≤ kMaxDepth := by
          have h3 : valueDepth w ≤ depthOfList items :=
            valueDepth_le_depthOfList items w hw
          have h4 : valueDepth (Value.arr items) = 1 + depthOfList items := by
            simp [valueDepth, hne]
          omega
        obtain ⟨lw, hp, hb, hnn⟩ := ih w hsw (d + 1) hprops.2 hdepw
        exact ⟨lw, hp, hb, hnn hprops.1⟩
      obtain ⟨lvs, hp, hb⟩ := pushSeq_roundtrip items 1 (d + 1) hmem
      refine ⟨.table false 0 (zipIdx 1 lvs), ?_, ?_, fun _ => rfl⟩
      · simp only [pushLuaValue]
        rw [if_neg hdle]
        simp [hp, except_bind_ok]
      · simp only [toLuaValue]
        rw [if_neg hdle]
        have hseq : isSequentialArray (zipIdx 1 lvs) = true :=
          isSequentialArrayGo_zipIdx lvs 1
        simp [hseq, hb, except_bind_ok]
    | map kvs =>
      have hrt2 : (kvs.isEmpty = false ∧ distinctKeys (kvs.map Prod.fst) = true)
          ∧ rtMap kvs = true := by
        simpa [roundTrippable, Bool.and_eq_true, Bool.not_eq_true'] using hrt
      obtain ⟨⟨hemp, hdist⟩, hrtm⟩ := hrt2
      have hne : kvs ≠ [] := by
        intro h; subst h; cases hemp
      have hmem : ∀ p ∈ kvs, ∃ lw, pushLuaValue p.2 (d + 1) = .ok lw
          ∧ toLuaValue lw (d + 1) = .ok p.2 ∧ isNilLNV lw = false := by
        intro p hp
        obtain ⟨pk, pv⟩ := p
        have h1 : sizeOf (pk, pv) < sizeOf kvs := List.sizeOf_lt_of_mem hp
        have h2 : sizeOf (Value.map kvs) = 1 + sizeOf kvs := by simp
        have h3 : sizeOf (pk, pv) = 1 + sizeOf pk + sizeOf pv := by simp
        have hsw : sizeOf pv ≤ n := by omega
        have hprops := rtMap_mem kvs hrtm (pk, pv) hp
        have hdepw : valueDepth pv + (d + 1) ≤ kMaxDepth := by
          have h4 : valueDepth pv ≤ depthOfMap kvs :=
            valueDepth_le_depthOfMap kvs (pk, pv) hp
          have h5 : valueDepth (Value.map kvs) = 1 + depthOfMap kvs := by
            simp [valueDepth, hemp]
          omega
        obtain ⟨lw, hpw, hbw, hnn⟩ := ih pv hsw (d + 1) hprops.2 hdepw
        exact ⟨lw, hpw, hbw, hnn hprops.1⟩
      obtain ⟨entries, hp, hkeys, hmap⟩ := pushMap_roundtrip kvs (d + 1) hmem
      have hconv : toLuaMapGo [] entries (d + 1) = .ok kvs := by
        have := hmap [] (fun k _ => rfl) hdist
        simpa using this
      have hseqf : isSequentialArray entries = false := by
        cases hkv : kvs with
        | nil => exact absurd hkv hne
        | cons q rest =>
          rw [hkv] at hkeys
          cases hent : entries with
          | nil =>
            rw [hent] at hkeys
            simp at hkeys
          | cons e0 erest =>
            obtain ⟨ek, ev⟩ := e0
            rw [hent] at hkeys
            simp only [List.map_cons] at hkeys
            injection hkeys with hk1 hk2
            subst hk1
            simp [isSequentialArray, isSequentialArrayGo]
      refine ⟨.table false 0 entries, ?_, ?_, fun _ => rfl⟩
      · simp only [pushLuaValue]
        rw [if_neg hdle]
        simp [hp, except_bind_ok]
      · simp only [toLuaValue]
        rw [if_neg hdle]
        simp [hseqf, hconv, except_bind_ok]
    | funcRef r => simp [roundTrippable] at hrt
    | threadRef r => simp [roundTrippable] at hrt
    | userdataRef a b c e => simp [roundTrippable] at hrt
    | tableRef r => simp [roundTrippable] at hrt

/-- C1 (amended): for every `Value` of nesting depth at most 100 built from
the structurally copied kinds only (no handle variants) in which every map
is nonempty with distinct keys and no aggregate stores a `Nil` child
directly, pushing onto the stack and converting back is the identity. -/
theorem roundtrip_amended_c1 :
    ∀ v : Value, roundTrippable v = true → valueDepth v ≤ kMaxDepth →
      (pushLuaValue v 0).bind (fun lv => toLuaValue lv 0) = .ok v := by
  intro v hrt hd
  obtain ⟨lv, hp, hb, _⟩ := roundtrip_aux (sizeOf v) v le_rfl 0 hrt (by omega)
  rw [hp]
  exact hb

/-- The round-trip claim as stated is false: the empty map (depth 0, no
handles, no attached behavior) pushes to an empty table, which `ToLuaValue`
classifies as the empty `Sequence`, not a `Map`. -/
theorem roundtrip_claim_counterexample_c1 :
    (pushLuaValue (Value.map []) 0).bind (fun lv => toLuaValue lv 0)
      ≠ .ok (Value.map []) := by
  intro h
  have h0 : (pushLuaValue (Value.map []) 0).bind (fun lv => toLuaValue lv 0)
      = .ok (Value.arr []) := rfl
  rw [h0] at h
  injection h with h
  cases h

/-- Concrete instantiation of `roundtrip_amended_c1`: a one-entry map nested
in a sequence round-trips unchanged. -/
theorem roundtrip_amended_c1_witness :
    roundTrippable (Value.arr [Value.map [("a", Value.int64 1)]]) = true
    ∧ valueDepth (Value.arr [Value.map [("a", Value.int64 1)]]) ≤ kMaxDepth
    ∧ (pushLuaValue (Value.arr [Value.map [("a", Value.int64 1)]]) 0).bind
        (fun lv => toLuaValue lv 0)
      = .ok (Value.arr [Value.map [("a", Value.int64 1)]]) :=
  ⟨rfl, by decide,
   roundtrip_amended_c1 (Value.arr [Value.map [("a", Value.int64 1)]]) rfl (by decide)⟩

end LuaNative
